import Mathlib

/-!
Verification of the mind-map layout and viewport engine of the
ThetaZero-SDE client.  The definitions below are a shallow embedding of
the TypeScript source (`MindMapPage` component): machine floating-point
numbers are modelled as exact rationals, the JS `Set` of expanded node
ids as a `Finset String`, and the mutually recursive closure-based
layout passes as explicit state-passing recursive functions.
-/

namespace MindMap

/-! ### Constants (source lines 477-485) -/

def NODE_HEIGHT : ℚ := 50
def HORIZONTAL_SPACING : ℚ := 60
def VERTICAL_SPACING : ℚ := 20
def NODE_HORIZONTAL_PADDING : ℚ := 40
def MIN_NODE_WIDTH : ℚ := 120
def CHEVRON_OFFSET : ℚ := 16
def MIN_ZOOM_WIDTH : ℚ := 200
def MAX_ZOOM_WIDTH : ℚ := 8000

/-! ### Data model -/

/-- `MindMapNode`: the topic tree received from the backend
(`{ topic: string, children: MindMapNode[] }`). -/
inductive MindMapNode : Type where
  | node (topic : String) (children : List MindMapNode)

def MindMapNode.topic : MindMapNode → String
  | .node t _ => t

def MindMapNode.children : MindMapNode → List MindMapNode
  | .node _ cs => cs

/-- A topic tree whose every node carries the string id assigned by `addIds`. -/
inductive IdNode : Type where
  | node (id : String) (topic : String) (children : List IdNode)

def IdNode.id : IdNode → String
  | .node i _ _ => i

def IdNode.topic : IdNode → String
  | .node _ t _ => t

def IdNode.children : IdNode → List IdNode
  | .node _ _ cs => cs

/-- Model of the per-character action of the regex replace
`topic.replace(/[^a-zA-Z0-9]/g, '-')`: ASCII letters and digits are kept,
every other character becomes the filler `'-'`. -/
def sanitizeChar (c : Char) : Char :=
  if ('a' ≤ c ∧ c ≤ 'z') ∨ ('A' ≤ c ∧ c ≤ 'Z') ∨ ('0' ≤ c ∧ c ≤ '9') then c else '-'

/-- `topic.replace(/[^a-zA-Z0-9]/g, '-')` applied to a whole label. -/
def sanitize (s : String) : String := ⟨s.data.map sanitizeChar⟩

mutual

/-- `addIds` (source lines 489-496): the node gets
`prefix + "-" + topic.replace(...)` and child `i` is processed
recursively with the fresh id extended by `"-" + i`.  `addIdsList` is
the explicit unfolding of
`children.map((child, i) => addIds(child, id + "-" + i))`. -/
def addIds : MindMapNode → String → IdNode
  | .node topic children, pre =>
    let i := pre ++ "-" ++ sanitize topic
    .node i topic (addIdsList children i 0)

def addIdsList : List MindMapNode → String → Nat → List IdNode
  | [], _, _ => []
  | c :: cs, i, k => addIds c (i ++ "-" ++ Nat.repr k) :: addIdsList cs i (k + 1)

end

mutual

/-- All ids occurring in an identified tree, in preorder. -/
def idsOf : IdNode → List String
  | .node i _ children => i :: idsOfList children

def idsOfList : List IdNode → List String
  | [] => []
  | c :: cs => idsOf c ++ idsOfList cs

end

/-- `p` occurs as a subtree of `t` (reflexive-transitive descent into
the `children` lists). -/
inductive SubtreeOf : IdNode → IdNode → Prop where
  | refl (t : IdNode) : SubtreeOf t t
  | step {s c t : IdNode} : SubtreeOf s c → c ∈ t.children → SubtreeOf s t

/-! ### Tree layout engine (source lines 594-662) -/

/-- The intermediate hierarchy produced by `buildHierarchy`: id, name,
depth, box width and height, the bottom-up vertical position `y`, and
the children that are actually rendered (filtered by expansion). -/
inductive HNode : Type where
  | node (id name : String) (depth : Nat) (width height : ℚ) (y : ℚ)
      (children : List HNode)

def HNode.y : HNode → ℚ
  | .node _ _ _ _ _ y _ => y

def HNode.width : HNode → ℚ
  | .node _ _ _ w _ _ _ => w

def HNode.children : HNode → List HNode
  | .node _ _ _ _ _ _ cs => cs

mutual

/-- `buildHierarchy` (source lines 599-621), with the mutable outer
`yCounter` made an explicit state argument threaded left to right.
A node's children are built only when its id is in `expandedNodes`;
a node with rendered children takes the mean of their `y` values, a
node without rendered children takes the current counter value, which
is then advanced by `NODE_HEIGHT + VERTICAL_SPACING`. -/
def buildHierarchy (measure : String → ℚ) (expandedNodes : Finset String) :
    IdNode → Nat → ℚ → HNode × ℚ
  | .node i topic cs, depth, yCounter =>
    let textWidth := measure topic
    let nodeWidth := max MIN_NODE_WIDTH (textWidth + NODE_HORIZONTAL_PADDING)
    let built := if i ∈ expandedNodes then
        buildHierarchyList measure expandedNodes cs (depth + 1) yCounter
      else ([], yCounter)
    if built.1.length > 0 then
      (.node i topic depth nodeWidth NODE_HEIGHT
        (((built.1.map HNode.y).sum) / (built.1.length : ℚ)) built.1, built.2)
    else
      (.node i topic depth nodeWidth NODE_HEIGHT built.2 built.1,
        built.2 + (NODE_HEIGHT + VERTICAL_SPACING))

/-- Explicit unfolding of `nodeData.children.map(child =>
buildHierarchy(child, depth + 1, layoutNode))` with the threaded counter. -/
def buildHierarchyList (measure : String → ℚ) (expandedNodes : Finset String) :
    List IdNode → Nat → ℚ → List HNode × ℚ
  | [], _, yCounter => ([], yCounter)
  | c :: cs, depth, yCounter =>
    let hc := buildHierarchy measure expandedNodes c depth yCounter
    let hcs := buildHierarchyList measure expandedNodes cs depth hc.2
    (hc.1 :: hcs.1, hcs.2)

end

/-- A fully positioned layout node, as pushed onto the `nodes` array. -/
structure PosNode : Type where
  id : String
  name : String
  depth : Nat
  width : ℚ
  height : ℚ
  x : ℚ
  y : ℚ
deriving DecidableEq

/-- A layout link, as pushed onto the `links` array: the source and
target are the (already positioned) parent and child nodes and `d` is
the cubic Bezier path string. -/
structure Link : Type where
  id : String
  source : PosNode
  target : PosNode
  d : String
deriving DecidableEq

/-- Link construction (source lines 633-643). -/
def mkLink (p c : PosNode) : Link :=
  let sx := p.x + p.width / 2 + CHEVRON_OFFSET
  let sy := p.y
  let tx := c.x - c.width / 2
  let ty := c.y
  let c1x := sx + HORIZONTAL_SPACING / 1.5
  let c2x := tx - HORIZONTAL_SPACING / 1.5
  { id := p.id ++ "-" ++ c.id
    source := p
    target := c
    d := "M " ++ toString sx ++ " " ++ toString sy ++ " C " ++ toString c1x
      ++ " " ++ toString sy ++ ", " ++ toString c2x ++ " " ++ toString ty
      ++ ", " ++ toString tx ++ " " ++ toString ty }

/-- The positioned hierarchy: the source mutates the `HNode` objects in
place during `positionNodes`; here the positioned tree is an explicit
value whose preorder flattening gives the `nodes` array. -/
inductive PTree : Type where
  | node (self : PosNode) (children : List PTree)

def PTree.self : PTree → PosNode
  | .node s _ => s

def PTree.children : PTree → List PTree
  | .node _ cs => cs

mutual

/-- `positionNodes` (source lines 623-646): top-down horizontal
placement plus the global vertical correction `yOffset` added to every
node's `y`.  A root (no parent) is placed at
`-containerWidth / 2 + width / 2 + 50`; a child at
`parent.x + parent.width / 2 + HORIZONTAL_SPACING + width / 2`. -/
def positionTree (containerWidth : ℚ) : HNode → ℚ → Option PosNode → PTree
  | .node i nm depth w h y cs, yOffset, par =>
    let x := match par with
      | some p => p.x + (p.width / 2 + HORIZONTAL_SPACING + w / 2)
      | none => (-containerWidth / 2) + (w / 2) + 50
    let self : PosNode :=
      { id := i, name := nm, depth := depth, width := w, height := h
        x := x, y := y + yOffset }
    .node self (positionTreeList containerWidth cs yOffset self)

def positionTreeList (containerWidth : ℚ) :
    List HNode → ℚ → PosNode → List PTree
  | [], _, _ => []
  | c :: cs, yOffset, p =>
    positionTree containerWidth c yOffset (some p) ::
      positionTreeList containerWidth cs yOffset p

end

mutual

/-- The `nodes` array in visit order: each node is pushed before its
children are visited. -/
def nodesOf : PTree → List PosNode
  | .node s cs => s :: nodesOfList cs

def nodesOfList : List PTree → List PosNode
  | [] => []
  | c :: cs => nodesOf c ++ nodesOfList cs

end

mutual

/-- The `links` array in visit order: each visited non-root node pushes
the link from its parent just after pushing itself. -/
def linksOf : PTree → List Link
  | .node s cs => linksOfList s cs

def linksOfList : PosNode → List PTree → List Link
  | _, [] => []
  | p, c :: cs => (mkLink p c.self :: linksOf c) ++ linksOfList p cs

end

/-- The complete layout pipeline of `calculateLayout` (source lines
648-652) producing the positioned hierarchy: build bottom-up, compute
`yCorrection = -hierarchy.y`, then position top-down. -/
def layoutTree (measure : String → ℚ) (expandedNodes : Finset String)
    (rootNode : IdNode) (containerWidth : ℚ) : PTree :=
  let hierarchy := (buildHierarchy measure expandedNodes rootNode 0 0).1
  positionTree containerWidth hierarchy (-hierarchy.y) none

/-- `calculateLayout` (source lines 594-653): the flat `nodes` and
`links` arrays of the positioned hierarchy. -/
def calculateLayout (measure : String → ℚ) (expandedNodes : Finset String)
    (rootNode : IdNode) (containerWidth : ℚ) : List PosNode × List Link :=
  let t := layoutTree measure expandedNodes rootNode containerWidth
  (nodesOf t, linksOf t)

/-- The text-measurement fallback `text.length * 8` (source line 591),
used when no canvas context is available. -/
def measureFallback (text : String) : ℚ := (text.length : ℚ) * 8

/-- `setInitialExpandedState` (source lines 655-662): the expansion set
becomes the singleton of the identified first root, or empty when there
is no root. -/
def setInitialExpandedState (roots : List MindMapNode) : Finset String :=
  match roots with
  | r :: _ => {(addIds r "root").id}
  | [] => ∅

mutual

/-- The tidy-tree centering property of a positioned hierarchy: every
node with at least one rendered child sits at the arithmetic mean of
its children's vertical positions. -/
def Centered : PTree → Prop
  | .node s cs =>
    (cs ≠ [] → s.y = ((cs.map fun c => c.self.y).sum) / (cs.length : ℚ)) ∧
      CenteredList cs

def CenteredList : List PTree → Prop
  | [] => True
  | c :: cs => Centered c ∧ CenteredList cs

end

mutual

/-- Same centering property for the intermediate hierarchy. -/
def BCentered : HNode → Prop
  | .node _ _ _ _ _ y cs =>
    (cs ≠ [] → y = ((cs.map HNode.y).sum) / (cs.length : ℚ)) ∧ BCenteredList cs

def BCenteredList : List HNode → Prop
  | [] => True
  | c :: cs => BCentered c ∧ BCenteredList cs

end

/-! ### Viewport controller (source lines 717-817) -/

/-- The SVG `viewBox` rectangle (stored in the source as the string
`"x y w h"`, parsed back on every operation; modelled as the four
parsed numbers). -/
structure ViewBox : Type where
  x : ℚ
  y : ℚ
  w : ℚ
  h : ℚ
deriving DecidableEq

/-- The surface's pixel bounding rectangle
(`getBoundingClientRect()`). -/
structure SvgRect : Type where
  left : ℚ
  top : ℚ
  width : ℚ
  height : ℚ
deriving DecidableEq

/-- The two sequential clamps applied to a freshly scaled width:
`if (newW < MIN_ZOOM_WIDTH) newW = MIN_ZOOM_WIDTH;`
`if (newW > MAX_ZOOM_WIDTH) newW = MAX_ZOOM_WIDTH;`. -/
def clampWidth (w : ℚ) : ℚ :=
  let w1 := if w < MIN_ZOOM_WIDTH then MIN_ZOOM_WIDTH else w
  if w1 > MAX_ZOOM_WIDTH then MAX_ZOOM_WIDTH else w1

inductive ZoomDir : Type where
  | zoomIn
  | zoomOut
deriving DecidableEq

/-- `handleButtonZoom` (source lines 717-732): scale by 1.25 (out) or
1/1.25 (in), clamp, recompute height proportionally, keep the centre. -/
def handleButtonZoom (vb : ViewBox) (direction : ZoomDir) : ViewBox :=
  let scaleFactor : ℚ := 1.25
  let scale := match direction with
    | .zoomOut => scaleFactor
    | .zoomIn => 1 / scaleFactor
  let newW := clampWidth (vb.w * scale)
  let newH := vb.h * (newW / vb.w)
  { x := vb.x + (vb.w - newW) / 2, y := vb.y + (vb.h - newH) / 2
    w := newW, h := newH }

/-- `handleWheel` (source lines 734-757): scale by 1.1 (`deltaY > 0`,
zoom out) or 1/1.1 (zoom in), clamp, recompute height, and reposition
so the scene point under the mouse stays under the mouse. -/
def handleWheel (vb : ViewBox) (rect : SvgRect)
    (clientX clientY deltaY : ℚ) : ViewBox :=
  let scaleFactor : ℚ := 1.1
  let scale := if deltaY > 0 then scaleFactor else 1 / scaleFactor
  let newW := clampWidth (vb.w * scale)
  let newH := vb.h * (newW / vb.w)
  let mouseX := clientX - rect.left
  let mouseY := clientY - rect.top
  let svgX := vb.x + (mouseX / rect.width) * vb.w
  let svgY := vb.y + (mouseY / rect.height) * vb.h
  { x := svgX - (mouseX / rect.width) * newW
    y := svgY - (mouseY / rect.height) * newH
    w := newW, h := newH }

/-- Conversion of a client pixel point to scene coordinates under a
given viewBox, exactly as in `handleWheel` lines 750-751. -/
def sceneOfPixel (vb : ViewBox) (rect : SvgRect)
    (clientX clientY : ℚ) : ℚ × ℚ :=
  (vb.x + ((clientX - rect.left) / rect.width) * vb.w,
    vb.y + ((clientY - rect.top) / rect.height) * vb.h)

/-- The drag-to-pan state of the component: `viewBox`, `isDragging`,
`dragStart`, and the cached `svgRectRef`. -/
structure PanState : Type where
  viewBox : ViewBox
  isDragging : Bool
  dragStart : ℚ × ℚ
  svgRect : Option SvgRect
deriving DecidableEq

/-- `handleMouseDown` (source lines 759-765). -/
def handleMouseDown (s : PanState) (clientX clientY : ℚ)
    (rect : SvgRect) : PanState :=
  { s with isDragging := true, dragStart := (clientX, clientY)
           svgRect := some rect }

/-- `handleMouseMove` (source lines 772-780): no-op unless a drag is in
progress with a cached rectangle; otherwise translate the view box by
the negated scene-space delta and restart the delta from the current
pointer position. -/
def handleMouseMove (s : PanState) (clientX clientY : ℚ) : PanState :=
  match s.isDragging, s.svgRect with
  | true, some rect =>
    let dx := (clientX - s.dragStart.1) * (s.viewBox.w / rect.width)
    let dy := (clientY - s.dragStart.2) * (s.viewBox.h / rect.height)
    { s with
        viewBox := { x := s.viewBox.x - dx, y := s.viewBox.y - dy
                     w := s.viewBox.w, h := s.viewBox.h }
        dragStart := (clientX, clientY) }
  | _, _ => s

/-- `toggleNode` (source lines 810-817): flip membership of `nodeId` in
the expansion set. -/
def toggleNode (s : Finset String) (nodeId : String) : Finset String :=
  if nodeId ∈ s then s.erase nodeId else insert nodeId s

/-- The concrete tree of the end-to-end scenario:
`{topic:"A", children:[{topic:"B"},{topic:"C",children:[{topic:"D"}]}]}`. -/
def tree5 : MindMapNode :=
  .node "A" [.node "B" [], .node "C" [.node "D" []]]

def idTree5 : IdNode := addIds tree5 "root"

/-- The numeric value of a decimal digit character. -/
def dval (c : Char) : ℕ := c.toNat - Char.toNat '0'

/-- The number denoted by a list of decimal digit characters. -/
def digitsVal (l : List Char) : ℕ := l.foldl (fun a c => 10 * a + dval c) 0

/-! ### Helper lemmas -/

theorem positionTree_self_y (cw : ℚ) (h : HNode) (yOff : ℚ)
    (par : Option PosNode) :
    (positionTree cw h yOff par).self.y = HNode.y h + yOff := by
  cases h with
  | node i nm d w ht y cs => simp [positionTree, PTree.self, HNode.y]

theorem clampWidth_bounds (w : ℚ) :
    MIN_ZOOM_WIDTH ≤ clampWidth w ∧ clampWidth w ≤ MAX_ZOOM_WIDTH := by
  simp only [clampWidth, MIN_ZOOM_WIDTH, MAX_ZOOM_WIDTH]
  split_ifs <;> constructor <;> linarith

theorem handleButtonZoom_w_bounds (vb : ViewBox) (direction : ZoomDir) :
    MIN_ZOOM_WIDTH ≤ (handleButtonZoom vb direction).w ∧
      (handleButtonZoom vb direction).w ≤ MAX_ZOOM_WIDTH :=
  clampWidth_bounds _

theorem handleWheel_w_bounds (vb : ViewBox) (rect : SvgRect)
    (cx cy dy : ℚ) :
    MIN_ZOOM_WIDTH ≤ (handleWheel vb rect cx cy dy).w ∧
      (handleWheel vb rect cx cy dy).w ≤ MAX_ZOOM_WIDTH :=
  clampWidth_bounds _

/-! ### Claim theorems -/

/-- C2: for every identified tree, expansion set and viewport width,
the root of the layout returned by `calculateLayout` (the head of the
`nodes` array) has `y = 0`. -/
theorem layout_root_anchored (measure : String → ℚ)
    (expandedNodes : Finset String) (rootNode : IdNode)
    (containerWidth : ℚ) :
    (layoutTree measure expandedNodes rootNode containerWidth).self.y = 0 ∧
      (calculateLayout measure expandedNodes rootNode containerWidth).1.head?
        = some (layoutTree measure expandedNodes rootNode containerWidth).self := by
  constructor
  · rw [layoutTree, positionTree_self_y]
    ring
  · show (nodesOf (layoutTree measure expandedNodes rootNode containerWidth)).head? = _
    cases layoutTree measure expandedNodes rootNode containerWidth with
    | node s cs => simp [nodesOf, PTree.self]

/-- C3 counterexample: in the tree with root "A" and single child "B",
the child's id is not `parentId ++ "-" ++ sanitize "B" ++ "-" ++ "0"`
(it is `parentId ++ "-0-B"`: the ordinal comes before the sanitized
label). -/
theorem addIds_child_id_claim_cex :
    ¬ ((addIds (MindMapNode.node "A" [MindMapNode.node "B" []]) "root").children.map IdNode.id
        = [(addIds (MindMapNode.node "A" [MindMapNode.node "B" []]) "root").id
            ++ "-" ++ sanitize "B" ++ "-" ++ Nat.repr 0]) := by
  decide

/-- C5 counterexample: for the scenario tree with exactly the root's id
expanded, `calculateLayout` does not return 1 node and 0 links (the
expanded root renders its two children). -/
theorem layout_root_only_expanded_cex :
    ¬ (((calculateLayout measureFallback (setInitialExpandedState [tree5]) idTree5 1000).1.length = 1) ∧
       ((calculateLayout measureFallback (setInitialExpandedState [tree5]) idTree5 1000).2.length = 0)) := by
  decide

/-- C5 amended: for the scenario tree with exactly the root's id
expanded, `calculateLayout` returns exactly 3 visible nodes (A and its
children B and C) and 2 links. -/
theorem layout_root_only_expanded :
    ((calculateLayout measureFallback (setInitialExpandedState [tree5]) idTree5 1000).1.map PosNode.id
        = ["root-A", "root-A-0-B", "root-A-1-C"]) ∧
      ((calculateLayout measureFallback (setInitialExpandedState [tree5]) idTree5 1000).2.length = 2) := by
  decide

/-- C6: for every viewport rectangle, surface rectangle with positive
pixel size and pixel point, the scene point of the pixel under the
rectangle produced by the wheel zoom equals the scene point under the
original rectangle, exactly over the rationals. -/
theorem wheel_zoom_focus (vb : ViewBox) (rect : SvgRect) (cx cy dy : ℚ)
    (hW : 0 < rect.width) (hH : 0 < rect.height) :
    sceneOfPixel (handleWheel vb rect cx cy dy) rect cx cy
      = sceneOfPixel vb rect cx cy := by
  clear hW hH
  simp only [handleWheel, sceneOfPixel, Prod.mk.injEq]
  constructor <;> ring

theorem wheel_zoom_focus_witness :
    (0 : ℚ) < 1000 ∧ (0 : ℚ) < 800 ∧
      sceneOfPixel
          (handleWheel ⟨-500, -400, 1000, 800⟩ ⟨0, 0, 1000, 800⟩ 120 80 (-1))
          ⟨0, 0, 1000, 800⟩ 120 80
        = sceneOfPixel ⟨-500, -400, 1000, 800⟩ ⟨0, 0, 1000, 800⟩ 120 80 :=
  ⟨by norm_num, by norm_num,
    wheel_zoom_focus ⟨-500, -400, 1000, 800⟩ ⟨0, 0, 1000, 800⟩ 120 80 (-1)
      (by norm_num) (by norm_num)⟩

/-- C7: starting from any rectangle, any sequence of between 1 and 100
repeated zoom-in steps (button or wheel) leaves the width at least
`MIN_ZOOM_WIDTH`, and any such sequence of zoom-out steps leaves the
width at most `MAX_ZOOM_WIDTH`. -/
theorem zoom_clamping (vb : ViewBox) (rect : SvgRect) (cx cy : ℚ)
    (n : ℕ) (h1 : 1 ≤ n) (h2 : n ≤ 100) :
    MIN_ZOOM_WIDTH ≤ ((fun v => handleButtonZoom v .zoomIn)^[n] vb).w ∧
      MIN_ZOOM_WIDTH ≤ ((fun v => handleWheel v rect cx cy (-1))^[n] vb).w ∧
      ((fun v => handleButtonZoom v .zoomOut)^[n] vb).w ≤ MAX_ZOOM_WIDTH ∧
      ((fun v => handleWheel v rect cx cy 1)^[n] vb).w ≤ MAX_ZOOM_WIDTH := by
  clear h2
  obtain ⟨m, rfl⟩ : ∃ m, n = m + 1 := ⟨n - 1, by omega⟩
  simp only [Function.iterate_succ_apply']
  exact ⟨(handleButtonZoom_w_bounds _ _).1, (handleWheel_w_bounds _ _ _ _ _).1,
    (handleButtonZoom_w_bounds _ _).2, (handleWheel_w_bounds _ _ _ _ _).2⟩

theorem zoom_clamping_witness :
    1 ≤ 1 ∧ 1 ≤ 100 ∧
      (MIN_ZOOM_WIDTH ≤
          ((fun v => handleButtonZoom v .zoomIn)^[1] ⟨0, 0, 1000, 1000⟩).w ∧
        MIN_ZOOM_WIDTH ≤
          ((fun v => handleWheel v ⟨0, 0, 1000, 1000⟩ 0 0 (-1))^[1] ⟨0, 0, 1000, 1000⟩).w ∧
        ((fun v => handleButtonZoom v .zoomOut)^[1] ⟨0, 0, 1000, 1000⟩).w ≤ MAX_ZOOM_WIDTH ∧
        ((fun v => handleWheel v ⟨0, 0, 1000, 1000⟩ 0 0 1)^[1] ⟨0, 0, 1000, 1000⟩).w ≤ MAX_ZOOM_WIDTH) :=
  ⟨le_refl 1, by norm_num,
    zoom_clamping ⟨0, 0, 1000, 1000⟩ ⟨0, 0, 1000, 1000⟩ 0 0 1
      (le_refl 1) (by norm_num)⟩

/-- C8: with rectangle width 1000 over a 1000-pixel-wide surface,
`handleMouseDown` at (100,100) followed by `handleMouseMove` at
(150,100) translates the rectangle by exactly -50 on the x axis and
leaves y, width and height unchanged. -/
theorem pan_translation (s : PanState) (rect : SvgRect)
    (hw : s.viewBox.w = 1000) (hr : rect.width = 1000) :
    (handleMouseMove (handleMouseDown s 100 100 rect) 150 100).viewBox =
      { x := s.viewBox.x - 50, y := s.viewBox.y
        w := s.viewBox.w, h := s.viewBox.h } := by
  simp [handleMouseDown, handleMouseMove, hw, hr]
  norm_num

theorem pan_translation_witness :
    (PanState.mk ⟨0, 0, 1000, 1000⟩ false (0, 0) none).viewBox.w = 1000 ∧
      (SvgRect.mk 0 0 1000 800).width = 1000 ∧
      (handleMouseMove
          (handleMouseDown (PanState.mk ⟨0, 0, 1000, 1000⟩ false (0, 0) none)
            100 100 (SvgRect.mk 0 0 1000 800)) 150 100).viewBox =
        { x := (PanState.mk (ViewBox.mk 0 0 1000 1000) false (0, 0) none).viewBox.x - 50
          y := (PanState.mk (ViewBox.mk 0 0 1000 1000) false (0, 0) none).viewBox.y
          w := (PanState.mk (ViewBox.mk 0 0 1000 1000) false (0, 0) none).viewBox.w
          h := (PanState.mk (ViewBox.mk 0 0 1000 1000) false (0, 0) none).viewBox.h } :=
  ⟨rfl, rfl,
    pan_translation (PanState.mk ⟨0, 0, 1000, 1000⟩ false (0, 0) none)
      (SvgRect.mk 0 0 1000 800) rfl rfl⟩

/-- C9: toggling a node id twice returns the expansion set to its
original membership, and toggling an id not in the set adds exactly
that id. -/
theorem toggle_membership (s : Finset String) (i : String) :
    toggleNode (toggleNode s i) i = s ∧
      (i ∉ s → toggleNode s i = insert i s) := by
  constructor
  · by_cases h : i ∈ s
    · simp [toggleNode, h, Finset.insert_erase]
    · simp [toggleNode, h, Finset.erase_insert]
  · intro h
    simp [toggleNode, h]

theorem toggle_membership_witness :
    toggleNode (toggleNode ∅ "a") "a" = ∅ ∧
      toggleNode ∅ "a" = insert "a" ∅ :=
  ⟨(toggle_membership ∅ "a").1, (toggle_membership ∅ "a").2 (by decide)⟩

/-! ### Centering of the built and positioned hierarchy (C1) -/

mutual

theorem bcentered_build (measure : String → ℚ) (e : Finset String) :
    ∀ (t : IdNode) (depth : Nat) (yc : ℚ),
      BCentered (buildHierarchy measure e t depth yc).1
  | .node i topic cs, depth, yc => by
    simp only [buildHierarchy]
    by_cases he : i ∈ e
    · simp only [if_pos he]
      by_cases hl : (buildHierarchyList measure e cs (depth + 1) yc).1.length > 0
      · simp only [if_pos hl, BCentered]
        exact ⟨by simp, bcentered_buildList measure e cs (depth + 1) yc⟩
      · simp only [if_neg hl, BCentered]
        have hnil : (buildHierarchyList measure e cs (depth + 1) yc).1 = [] :=
          List.eq_nil_of_length_eq_zero (by omega)
        rw [hnil]
        simp [BCenteredList]
    · simp only [if_neg he]
      simp [BCentered, BCenteredList]

theorem bcentered_buildList (measure : String → ℚ) (e : Finset String) :
    ∀ (cs : List IdNode) (depth : Nat) (yc : ℚ),
      BCenteredList (buildHierarchyList measure e cs depth yc).1
  | [], _, _ => by simp [buildHierarchyList, BCenteredList]
  | c :: cs, depth, yc => by
    simp only [buildHierarchyList, BCenteredList]
    exact ⟨bcentered_build measure e c depth yc,
      bcentered_buildList measure e cs depth _⟩

end

theorem positionTreeList_map_self_y (cw : ℚ) :
    ∀ (cs : List HNode) (yOff : ℚ) (p : PosNode),
      (positionTreeList cw cs yOff p).map (fun c => c.self.y)
        = cs.map (fun c => HNode.y c + yOff)
  | [], _, _ => by simp [positionTreeList]
  | c :: cs, yOff, p => by
    simp only [positionTreeList, List.map_cons, positionTree_self_y]
    rw [positionTreeList_map_self_y cw cs yOff p]

theorem positionTreeList_length (cw : ℚ) :
    ∀ (cs : List HNode) (yOff : ℚ) (p : PosNode),
      (positionTreeList cw cs yOff p).length = cs.length
  | [], _, _ => by simp [positionTreeList]
  | c :: cs, yOff, p => by
    simp only [positionTreeList, List.length_cons]
    rw [positionTreeList_length cw cs yOff p]

theorem sum_map_y_add (cs : List HNode) (yOff : ℚ) :
    (cs.map (fun c => HNode.y c + yOff)).sum
      = (cs.map HNode.y).sum + cs.length * yOff := by
  induction cs with
  | nil => simp
  | cons c cs ih => simp [ih]; ring

mutual

theorem centered_position (cw : ℚ) :
    ∀ (h : HNode) (yOff : ℚ) (par : Option PosNode),
      BCentered h → Centered (positionTree cw h yOff par)
  | .node i nm d w ht y cs, yOff, par => by
    intro hb
    simp only [BCentered] at hb
    simp only [positionTree, Centered]
    constructor
    · intro hne
      have hcs : cs ≠ [] := by
        intro hnil
        rw [hnil] at hne
        simp [positionTreeList] at hne
      have hy := hb.1 hcs
      have h0 : cs.length ≠ 0 := fun h => hcs (List.eq_nil_of_length_eq_zero h)
      have hlen : ((cs.length : ℚ)) ≠ 0 := Nat.cast_ne_zero.mpr h0
      simp only [positionTreeList_map_self_y, positionTreeList_length,
        sum_map_y_add]
      rw [hy]
      field_simp
      ring
    · exact centered_positionList cw cs yOff _ hb.2

theorem centered_positionList (cw : ℚ) :
    ∀ (cs : List HNode) (yOff : ℚ) (p : PosNode),
      BCenteredList cs → CenteredList (positionTreeList cw cs yOff p)
  | [], _, _ => fun _ => by simp [positionTreeList, CenteredList]
  | c :: cs, yOff, p => fun hb => by
    simp only [BCenteredList] at hb
    simp only [positionTreeList, CenteredList]
    exact ⟨centered_position cw c yOff _ hb.1,
      centered_positionList cw cs yOff _ hb.2⟩

end

/-- C1: in the layout returned by `calculateLayout`, every node with at
least one rendered child sits at the arithmetic mean of its rendered
children's final y coordinates; the returned node and link arrays are
the flattening of that positioned hierarchy. -/
theorem layout_centering (measure : String → ℚ) (e : Finset String)
    (r : IdNode) (cw : ℚ) :
    Centered (layoutTree measure e r cw) ∧
      calculateLayout measure e r cw
        = (nodesOf (layoutTree measure e r cw), linksOf (layoutTree measure e r cw)) :=
  ⟨centered_position cw _ _ none (bcentered_build measure e r 0 0), rfl⟩

/-! ### Tree shape of the produced layout (C10) -/

mutual

theorem links_count : ∀ t : PTree, (linksOf t).length + 1 = (nodesOf t).length
  | .node s cs => by
    simp only [linksOf, nodesOf, List.length_cons]
    rw [links_countList s cs]

theorem links_countList :
    ∀ (p : PosNode) (cs : List PTree),
      (linksOfList p cs).length = (nodesOfList cs).length
  | _, [] => by simp [linksOfList, nodesOfList]
  | p, c :: cs => by
    simp only [linksOfList, nodesOfList, List.length_append, List.length_cons]
    have h1 := links_count c
    have h2 := links_countList p cs
    omega

end

theorem self_mem_nodesOf : ∀ t : PTree, t.self ∈ nodesOf t
  | .node s cs => by simp [nodesOf, PTree.self]

mutual

theorem links_mem : ∀ (t : PTree) (l : Link), l ∈ linksOf t →
    l.source ∈ nodesOf t ∧ l.target ∈ nodesOf t
  | .node s cs, l => by
    intro h
    simp only [linksOf] at h
    simp only [nodesOf]
    have := links_memList s cs l h
    rcases this with ⟨hs | hs, ht⟩
    · exact ⟨by simp [hs], by simp [ht]⟩
    · exact ⟨by simp [hs], by simp [ht]⟩

theorem links_memList : ∀ (p : PosNode) (cs : List PTree) (l : Link),
    l ∈ linksOfList p cs →
      (l.source = p ∨ l.source ∈ nodesOfList cs) ∧ l.target ∈ nodesOfList cs
  | p, [], l => by simp [linksOfList]
  | p, c :: cs, l => by
    intro h
    simp only [linksOfList, List.cons_append, List.mem_cons, List.mem_append] at h
    simp only [nodesOfList, List.mem_append]
    rcases h with h | h | h
    · subst h
      refine ⟨Or.inl rfl, Or.inl ?_⟩
      simpa [mkLink] using self_mem_nodesOf c
    · have := links_mem c l h
      exact ⟨Or.inr (Or.inl this.1), Or.inl this.2⟩
    · have := links_memList p cs l h
      rcases this with ⟨hs | hs, ht⟩
      · exact ⟨Or.inl hs, Or.inr ht⟩
      · exact ⟨Or.inr (Or.inr hs), Or.inr ht⟩

end

/-- C10: the layout returned by `calculateLayout` is a tree over the
visible nodes: the link count is the node count minus one, and every
link's source and target are members of the returned node list. -/
theorem layout_tree_shape (measure : String → ℚ) (e : Finset String)
    (r : IdNode) (cw : ℚ) :
    (calculateLayout measure e r cw).2.length
        = (calculateLayout measure e r cw).1.length - 1 ∧
      List.Forall
        (fun l => l.source ∈ (calculateLayout measure e r cw).1 ∧
          l.target ∈ (calculateLayout measure e r cw).1)
        (calculateLayout measure e r cw).2 := by
  constructor
  · have := links_count (layoutTree measure e r cw)
    show (linksOf _).length = (nodesOf _).length - 1
    omega
  · rw [List.forall_iff_forall_mem]
    intro l hl
    exact links_mem (layoutTree measure e r cw) l hl

/-! ### Facts about decimal numerals (`Nat.repr`), used for id
uniqueness -/

theorem repr_data (n : ℕ) : (Nat.repr n).data = Nat.toDigits 10 n := rfl

theorem dval_digitChar {n : ℕ} (h : n < 10) : dval (Nat.digitChar n) = n := by
  interval_cases n <;> decide

theorem digitChar_isDigit {n : ℕ} (h : n < 10) : (Nat.digitChar n).isDigit := by
  interval_cases n <;> decide

theorem mem_toDigitsCore_10 :
    ∀ (fuel n : ℕ) (ds : List Char) (c : Char),
      c ∈ Nat.toDigitsCore 10 fuel n ds → c ∈ ds ∨ c.isDigit := by
  intro fuel
  induction fuel with
  | zero => intro n ds c h; exact Or.inl h
  | succ f ih =>
    intro n ds c h
    simp only [Nat.toDigitsCore] at h
    have hd : (Nat.digitChar (n % 10)).isDigit :=
      digitChar_isDigit (Nat.mod_lt _ (by norm_num))
    by_cases h10 : n / 10 = 0
    · rw [if_pos h10] at h
      rcases List.mem_cons.mp h with h | h
      · exact Or.inr (h ▸ hd)
      · exact Or.inl h
    · rw [if_neg h10] at h
      rcases ih _ _ _ h with h | h
      · rcases List.mem_cons.mp h with h | h
        · exact Or.inr (h ▸ hd)
        · exact Or.inl h
      · exact Or.inr h

theorem repr_no_dash (n : ℕ) : '-' ∉ (Nat.repr n).data := by
  rw [repr_data]
  intro h
  rcases mem_toDigitsCore_10 (n + 1) n [] '-' h with h | h
  · simp at h
  · exact absurd h (by decide)

theorem toDigitsCore_eq_append :
    ∀ (n fuel : ℕ) (ds : List Char), n < fuel →
      Nat.toDigitsCore 10 fuel n ds = Nat.toDigits 10 n ++ ds := by
  intro n
  induction n using Nat.strong_induction_on with
  | _ n ih =>
    intro fuel ds hf
    cases fuel with
    | zero => omega
    | succ f =>
      by_cases h10 : n / 10 = 0
      · simp only [Nat.toDigits, Nat.toDigitsCore, if_pos h10]
        simp
      · have hn0 : 0 < n := by
          rcases Nat.eq_zero_or_pos n with h | h
          · subst h; simp at h10
          · exact h
        have hlt : n / 10 < n := Nat.div_lt_self hn0 (by norm_num)
        simp only [Nat.toDigitsCore, if_neg h10]
        rw [ih (n / 10) hlt f _ (by omega)]
        have hR : Nat.toDigits 10 n
            = Nat.toDigits 10 (n / 10) ++ [Nat.digitChar (n % 10)] := by
          show Nat.toDigitsCore 10 (n + 1) n [] = _
          simp only [Nat.toDigitsCore, if_neg h10]
          rw [ih (n / 10) hlt n _ (by omega)]
        rw [hR, List.append_assoc]
        rfl

theorem toDigits_step (n : ℕ) (h10 : n / 10 ≠ 0) :
    Nat.toDigits 10 n = Nat.toDigits 10 (n / 10) ++ [Nat.digitChar (n % 10)] := by
  have hn0 : 0 < n := by
    rcases Nat.eq_zero_or_pos n with h | h
    · subst h; simp at h10
    · exact h
  have hlt : n / 10 < n := Nat.div_lt_self hn0 (by norm_num)
  show Nat.toDigitsCore 10 (n + 1) n [] = _
  simp only [Nat.toDigitsCore, if_neg h10]
  rw [toDigitsCore_eq_append (n / 10) n _ (by omega)]

theorem digitsVal_append_singleton (l : List Char) (c : Char) :
    digitsVal (l ++ [c]) = 10 * digitsVal l + dval c := by
  simp [digitsVal, List.foldl_append]

theorem digitsVal_toDigits : ∀ n : ℕ, digitsVal (Nat.toDigits 10 n) = n := by
  intro n
  induction n using Nat.strong_induction_on with
  | _ n ih =>
    by_cases h10 : n / 10 = 0
    · have hlt10 : n < 10 := by
        by_contra hge
        have : 1 ≤ n / 10 := Nat.le_div_iff_mul_le (by norm_num) |>.mpr (by omega)
        omega
      have hT : Nat.toDigits 10 n = [Nat.digitChar (n % 10)] := by
        show Nat.toDigitsCore 10 (n + 1) n [] = _
        simp only [Nat.toDigitsCore, if_pos h10]
      have hv : digitsVal [Nat.digitChar (n % 10)]
          = dval (Nat.digitChar (n % 10)) := by simp [digitsVal]
      rw [hT, hv, dval_digitChar (Nat.mod_lt _ (by norm_num)),
        Nat.mod_eq_of_lt hlt10]
    · have hn0 : 0 < n := by
        rcases Nat.eq_zero_or_pos n with h | h
        · subst h; simp at h10
        · exact h
      have hlt : n / 10 < n := Nat.div_lt_self hn0 (by norm_num)
      rw [toDigits_step n h10, digitsVal_append_singleton, ih _ hlt,
        dval_digitChar (Nat.mod_lt _ (by norm_num))]
      omega

theorem repr_inj {m n : ℕ} (h : Nat.repr m = Nat.repr n) : m = n := by
  have hd : Nat.toDigits 10 m = Nat.toDigits 10 n := by
    rw [← repr_data, ← repr_data, h]
  calc m = digitsVal (Nat.toDigits 10 m) := (digitsVal_toDigits m).symm
    _ = digitsVal (Nat.toDigits 10 n) := by rw [hd]
    _ = n := digitsVal_toDigits n

theorem repr_data_inj {m n : ℕ} (h : (Nat.repr m).data = (Nat.repr n).data) :
    m = n :=
  repr_inj (String.ext h)

theorem dash_split :
    ∀ (a b s t : List Char), '-' ∉ a → '-' ∉ b →
      a ++ '-' :: s = b ++ '-' :: t → a = b ∧ s = t := by
  intro a
  induction a with
  | nil =>
    intro b s t _ hb h
    cases b with
    | nil => simp_all
    | cons x xs =>
      simp only [List.nil_append, List.cons_append, List.cons.injEq] at h
      exact absurd (h.1 ▸ List.mem_cons_self x xs) hb
  | cons x xs ih =>
    intro b s t ha hb h
    cases b with
    | nil =>
      simp only [List.cons_append, List.nil_append, List.cons.injEq] at h
      exact absurd (h.1 ▸ List.mem_cons_self x xs) ha
    | cons y ys =>
      simp only [List.cons_append, List.cons.injEq] at h
      obtain ⟨hxy, h2⟩ := h
      have hr := ih ys s t (fun hm => ha (List.mem_cons_of_mem _ hm))
        (fun hm => hb (List.mem_cons_of_mem _ hm)) h2
      exact ⟨by rw [hxy, hr.1], hr.2⟩

/-! ### Structure of the ids assigned by `addIds` (C3, C4) -/

theorem addIds_def (tp : String) (cs : List MindMapNode) (pre : String) :
    addIds (.node tp cs) pre
      = .node (pre ++ "-" ++ sanitize tp) tp
          (addIdsList cs (pre ++ "-" ++ sanitize tp) 0) := by
  simp [addIds]

theorem addIds_id (t : MindMapNode) (pre : String) :
    (addIds t pre).id = pre ++ "-" ++ sanitize t.topic := by
  cases t with
  | node tp cs => rw [addIds_def]; rfl

theorem addIds_topic (t : MindMapNode) (pre : String) :
    (addIds t pre).topic = t.topic := by
  cases t with
  | node tp cs => rw [addIds_def]; rfl

theorem data_dash (a b : String) :
    (a ++ "-" ++ b).data = a.data ++ '-' :: b.data := by
  rw [String.data_append, String.data_append]
  simp

mutual

/-- Every id in the subtree identified with prefix `pre` extends the
subtree root's id. -/
theorem ids_ext : ∀ (t : MindMapNode) (pre : String) (s : String),
    s ∈ idsOf (addIds t pre) →
      ∃ tail, s.data = (addIds t pre).id.data ++ tail
  | .node tp cs, pre, s => by
    intro hs
    rw [addIds_def] at hs ⊢
    simp only [idsOf, List.mem_cons, IdNode.id] at hs ⊢
    rcases hs with hs | hs
    · exact ⟨[], by simp [hs]⟩
    · obtain ⟨j, rest, _, hdata⟩ := ids_extList cs (pre ++ "-" ++ sanitize tp) 0 s hs
      rw [data_dash] at hdata
      exact ⟨'-' :: ((Nat.repr j).data ++ '-' :: rest), by
        rw [hdata, data_dash]
        simp⟩

/-- Every id in the subtrees of the children at sibling indices `k, k+1, …`
starts with `pre ++ "-" ++ j ++ "-"` for some `j ≥ k`. -/
theorem ids_extList : ∀ (cs : List MindMapNode) (pre : String) (k : ℕ) (s : String),
    s ∈ idsOfList (addIdsList cs pre k) →
      ∃ j rest, k ≤ j ∧
        s.data = (pre ++ "-" ++ Nat.repr j).data ++ '-' :: rest
  | [], _, _, _ => by simp [addIdsList, idsOfList]
  | c :: cs, pre, k, s => by
    intro hs
    simp only [addIdsList, idsOfList, List.mem_append] at hs
    rcases hs with hs | hs
    · obtain ⟨tail, htail⟩ := ids_ext c (pre ++ "-" ++ Nat.repr k) s hs
      rw [addIds_id, data_dash] at htail
      refine ⟨k, (sanitize c.topic).data ++ tail, le_refl k, ?_⟩
      rw [htail]
      simp
    · obtain ⟨j, rest, hj, hdata⟩ := ids_extList cs pre (k + 1) s hs
      exact ⟨j, rest, by omega, hdata⟩

end

mutual

theorem nodup_ids : ∀ (t : MindMapNode) (pre : String),
    (idsOf (addIds t pre)).Nodup
  | .node tp cs, pre => by
    rw [addIds_def]
    simp only [idsOf, List.nodup_cons]
    constructor
    · intro hmem
      obtain ⟨j, rest, _, hdata⟩ :=
        ids_extList cs (pre ++ "-" ++ sanitize tp) 0 _ hmem
      have hlen := congrArg List.length hdata
      rw [data_dash] at hlen
      simp [List.length_append] at hlen
    · exact nodup_idsList cs _ 0

theorem nodup_idsList : ∀ (cs : List MindMapNode) (pre : String) (k : ℕ),
    (idsOfList (addIdsList cs pre k)).Nodup
  | [], _, _ => by simp [addIdsList, idsOfList]
  | c :: cs, pre, k => by
    simp only [addIdsList, idsOfList]
    rw [List.nodup_append]
    refine ⟨nodup_ids c _, nodup_idsList cs pre (k + 1), ?_⟩
    intro s hs hs'
    obtain ⟨tail, htail⟩ := ids_ext c (pre ++ "-" ++ Nat.repr k) s hs
    rw [addIds_id, data_dash, data_dash] at htail
    obtain ⟨j, rest, hj, hdata⟩ := ids_extList cs pre (k + 1) s hs'
    rw [data_dash] at hdata
    rw [htail] at hdata
    simp only [List.append_assoc, List.cons_append] at hdata
    have hcancel := List.append_cancel_left hdata
    have hcons := List.cons.inj hcancel
    have hsplit := dash_split (Nat.repr k).data (Nat.repr j).data _ _
      (repr_no_dash k) (repr_no_dash j) hcons.2
    have : k = j := repr_data_inj hsplit.1
    omega

end

/-- C4: the identifiers assigned by `addIds` are pairwise distinct
within the tree, for every topic tree and starting prefix — in
particular also when two sibling nodes share a label. -/
theorem addIds_ids_distinct (t : MindMapNode) (pre : String) :
    (idsOf (addIds t pre)).Nodup :=
  nodup_ids t pre

theorem mem_addIdsList :
    ∀ (cs : List MindMapNode) (pre : String) (k : ℕ) (c : IdNode),
      c ∈ addIdsList cs pre k →
        ∃ (j : ℕ) (t : MindMapNode), c = addIds t (pre ++ "-" ++ Nat.repr j)
  | [], _, _, _ => by simp [addIdsList]
  | c0 :: cs, pre, k, c => by
    intro h
    simp only [addIdsList, List.mem_cons] at h
    rcases h with h | h
    · exact ⟨k, c0, h⟩
    · exact mem_addIdsList cs pre (k + 1) c h

theorem subtree_shape {p X : IdNode} (h : SubtreeOf p X) :
    ∀ (t : MindMapNode) (pre : String), X = addIds t pre →
      ∃ (t' : MindMapNode) (pre' : String), p = addIds t' pre' := by
  induction h with
  | refl =>
    intro t pre hX
    exact ⟨t, pre, hX⟩
  | step hsub hmem ih =>
    intro t pre hX
    subst hX
    cases t with
    | node tp cs =>
      rw [addIds_def] at hmem
      simp only [IdNode.children] at hmem
      obtain ⟨j, t', ht'⟩ := mem_addIdsList cs _ 0 _ hmem
      exact ih t' _ ht'

theorem getElem?_addIdsList :
    ∀ (cs : List MindMapNode) (pre : String) (k j : ℕ),
      (addIdsList cs pre k)[j]?
        = (cs[j]?).map (fun c => addIds c (pre ++ "-" ++ Nat.repr (k + j)))
  | [], _, _, _ => by simp [addIdsList]
  | c :: cs, pre, k, 0 => by simp [addIdsList]
  | c :: cs, pre, k, j + 1 => by
    simp only [addIdsList, List.getElem?_cons_succ]
    rw [getElem?_addIdsList cs pre (k + 1) j]
    have : k + 1 + j = k + (j + 1) := by omega
    rw [this]

/-- C3 amended: in an identified tree produced by `addIds`, the child at
ordinal index `k` of any node carries the identifier
`parentId ++ "-" ++ k ++ "-" ++ sanitize(label)` — the ordinal index
comes before the sanitized label, not after it. -/
theorem addIds_child_id_format (t : MindMapNode) (pre : String)
    (p c : IdNode) (k : ℕ) (hp : SubtreeOf p (addIds t pre))
    (hc : p.children[k]? = some c) :
    c.id = p.id ++ "-" ++ Nat.repr k ++ "-" ++ sanitize c.topic := by
  obtain ⟨t', pre', rfl⟩ := subtree_shape hp t pre rfl
  cases t' with
  | node tp cs =>
    rw [addIds_def] at hc ⊢
    simp only [IdNode.children] at hc
    rw [getElem?_addIdsList] at hc
    cases hcs : cs[k]? with
    | none => rw [hcs] at hc; simp at hc
    | some c0 =>
      rw [hcs] at hc
      simp only [Option.map_some', Option.some.injEq] at hc
      rw [← hc, addIds_id, addIds_topic]
      simp only [IdNode.id, Nat.zero_add]

theorem addIds_child_id_format_witness :
    (addIds (MindMapNode.node "A" [MindMapNode.node "B" []]) "root").children[0]?
        = some (addIds (MindMapNode.node "B" []) ("root-A" ++ "-" ++ Nat.repr 0)) ∧
      (addIds (MindMapNode.node "B" []) ("root-A" ++ "-" ++ Nat.repr 0)).id
        = (addIds (MindMapNode.node "A" [MindMapNode.node "B" []]) "root").id
            ++ "-" ++ Nat.repr 0
            ++ "-" ++ sanitize (addIds (MindMapNode.node "B" []) ("root-A" ++ "-" ++ Nat.repr 0)).topic :=
  ⟨rfl,
    addIds_child_id_format (MindMapNode.node "A" [MindMapNode.node "B" []]) "root"
      (addIds (MindMapNode.node "A" [MindMapNode.node "B" []]) "root")
      (addIds (MindMapNode.node "B" []) ("root-A" ++ "-" ++ Nat.repr 0)) 0
      (SubtreeOf.refl _) rfl⟩

end MindMap
